import Mathlib

/-!
Verification development for the `nas-toolbox` repository (d2fn deduplicator).

The Rust sources are shallowly embedded: file contents and paths are byte
lists (`List Nat`, each byte < 256 where it matters), `usize`/`u32`/`u64`
arithmetic is `Nat` with explicit `% 2^w` where overflow can occur, hash
maps and hash sets are modelled as insertion-ordered association lists
(the iteration order of Rust's `HashMap` is unspecified; the model fixes
it to insertion order), and fallible operations return `Option`.
-/

namespace NasToolbox

/-! ## Association list helpers (model of `HashMap` operations) -/

/-- First-match lookup, model of `HashMap::get`. -/
def lookupA {α β : Type} [DecidableEq α] : List (α × β) → α → Option β
  | [], _ => none
  | (a, b) :: t, k => if a = k then some b else lookupA t k

/-- Replace the value of the first entry with key `k`, model of mutation
through `HashMap::get_mut`. -/
def modifyA {α β : Type} [DecidableEq α] : List (α × β) → α → (β → β) → List (α × β)
  | [], _, _ => []
  | (a, b) :: t, k, f => if a = k then (a, f b) :: t else (a, b) :: modifyA t k f

/-- Model of `HashMap::insert`: replace the existing binding, else append a
new one. -/
def insertA {α β : Type} [DecidableEq α] (l : List (α × β)) (k : α) (v : β) : List (α × β) :=
  match lookupA l k with
  | some _ => modifyA l k (fun _ => v)
  | none => l ++ [(k, v)]

theorem lookupA_mem {α β : Type} [DecidableEq α] {l : List (α × β)} {k : α} {b : β}
    (h : lookupA l k = some b) : (k, b) ∈ l := by
  induction l with
  | nil => simp [lookupA] at h
  | cons p t ih =>
    obtain ⟨a, v⟩ := p
    simp only [lookupA] at h
    by_cases hak : a = k
    · simp [hak] at h
      simp [hak, h]
    · simp [hak] at h
      exact List.mem_cons_of_mem _ (ih h)

theorem mem_modifyA {α β : Type} [DecidableEq α] {l : List (α × β)} {k : α} {f : β → β}
    {p : α × β} (h : p ∈ modifyA l k f) :
    p ∈ l ∨ ∃ b, (k, b) ∈ l ∧ p = (k, f b) := by
  induction l with
  | nil => simp [modifyA] at h
  | cons q t ih =>
    obtain ⟨a, v⟩ := q
    simp only [modifyA] at h
    by_cases hak : a = k
    · simp [hak] at h
      rcases h with h | h
      · right; exact ⟨v, by simp [hak, h]⟩
      · left; exact List.mem_cons_of_mem _ h
    · simp [hak] at h
      rcases h with h | h
      · left; simp [h]
      · rcases ih h with h' | ⟨b, hb, hp⟩
        · left; exact List.mem_cons_of_mem _ h'
        · right; exact ⟨b, List.mem_cons_of_mem _ hb, hp⟩

theorem mem_insertA {α β : Type} [DecidableEq α] {l : List (α × β)} {k : α} {v : β}
    {p : α × β} (h : p ∈ insertA l k v) : p ∈ l ∨ p = (k, v) := by
  unfold insertA at h
  cases hl : lookupA l k with
  | some b =>
    rw [hl] at h
    rcases mem_modifyA h with h' | ⟨b', _, hp⟩
    · left; exact h'
    · right; exact hp
  | none =>
    rw [hl] at h
    rcases List.mem_append.1 h with h' | h'
    · left; exact h'
    · right; simpa using h'

theorem lookupA_modifyA_ne {α β : Type} [DecidableEq α] (l : List (α × β)) (k k' : α)
    (f : β → β) (hne : k ≠ k') : lookupA (modifyA l k' f) k = lookupA l k := by
  induction l with
  | nil => simp [modifyA]
  | cons q t ih =>
    obtain ⟨a, v⟩ := q
    simp only [modifyA]
    by_cases hak : a = k'
    · subst hak
      simp only [if_pos rfl, lookupA]
      have : ¬ a = k := fun h => hne (h ▸ rfl)
      simp [this]
    · simp only [if_neg hak, lookupA]
      by_cases hak2 : a = k
      · simp [hak2]
      · simp [hak2, ih]

theorem lookupA_modifyA_self {α β : Type} [DecidableEq α] (l : List (α × β)) (k : α)
    (f : β → β) {b : β} (h : lookupA l k = some b) :
    lookupA (modifyA l k f) k = some (f b) := by
  induction l with
  | nil => simp [lookupA] at h
  | cons q t ih =>
    obtain ⟨a, v⟩ := q
    simp only [lookupA] at h
    simp only [modifyA]
    by_cases hak : a = k
    · simp [hak] at h
      simp [lookupA, hak, h]
    · simp [hak] at h
      simp [lookupA, hak, ih h]

theorem lookupA_append_left {α β : Type} [DecidableEq α] {l : List (α × β)} (l' : List (α × β))
    {k : α} {b : β} (h : lookupA l k = some b) : lookupA (l ++ l') k = some b := by
  induction l with
  | nil => simp [lookupA] at h
  | cons q t ih =>
    obtain ⟨a, v⟩ := q
    simp only [lookupA] at h ⊢
    by_cases hak : a = k
    · simpa [hak] using h
    · simp [hak] at h ⊢
      exact ih h

theorem lookupA_append_right {α β : Type} [DecidableEq α] {l : List (α × β)} (l' : List (α × β))
    {k : α} (h : lookupA l k = none) : lookupA (l ++ l') k = lookupA l' k := by
  induction l with
  | nil => simp [lookupA]
  | cons q t ih =>
    obtain ⟨a, v⟩ := q
    simp only [lookupA] at h ⊢
    by_cases hak : a = k
    · simp [hak] at h
    · simp [hak] at h ⊢
      exact ih h

/-! ## `src/hash.rs` — `checksum_file`

`blake3::Hasher` is abstracted by the exact byte stream fed to it via
`hasher.update`: under the collision-freeness assumption documented in the
source, two hashes are equal iff the update streams are equal, so the model
returns the stream itself.  Reads of a regular file are deterministic: each
`file.read(&mut buffer)` returns `min CHUNK_SIZE remaining` bytes and fills
the buffer prefix, leaving the rest of the buffer (stale bytes) unchanged.
`none` models the `usize` underflow of `compare_size - hashed_size`
(a panic in debug profiles). -/

def CHUNK_SIZE : Nat := 1048576

def USIZE_MAX : Nat := 18446744073709551615

inductive CompareMode where
  | Full : CompareMode
  | Part (n : Nat) : CompareMode

/-- The `compare_size` value as selected at the top of `checksum_file`. -/
def compareSizeOf : CompareMode → Nat
  | .Full => USIZE_MAX
  | .Part n => n

/-- The read/hash loop of `checksum_file`.  State: bytes not yet read,
scratch buffer contents, stream already fed to the hasher, `hashed_size`. -/
def csLoop (c cs : Nat) (remaining buffer acc : List Nat) (hashed : Nat) :
    Option (List Nat) :=
  let len := min c remaining.length
  if h0 : len = 0 then some acc
  else if cs < hashed then none
  else
    let buffer' := remaining.take len ++ buffer.drop len
    let chl := min (cs - hashed) c
    let acc' := acc ++ buffer'.take chl
    let hashed' := (hashed + len) % 18446744073709551616
    if hashed' = cs then some acc'
    else csLoop c cs (remaining.drop len) buffer' acc' hashed'
termination_by remaining.length
decreasing_by
  have h1 : min c remaining.length ≤ remaining.length := Nat.min_le_right _ _
  simp only [List.length_drop]
  omega

/-- Model of `checksum_file`, parameterized by the chunk size `c` (the source fixes
`c = CHUNK_SIZE`); returns the byte stream fed to the hasher, or `none` on
the underflow panic. -/
def checksum_file (c : Nat) (mode : CompareMode) (content : List Nat) : Option (List Nat) :=
  csLoop c (compareSizeOf mode) content (List.replicate c 0) [] 0

/-! ## `src/duplicate.rs` — the deduplication engine

A `File` record carries the attributes the engine reads: path bytes,
size and inode from the metadata, and the result of `path.extension()`
(`OsStr` extension extraction is abstracted as a stored field).  The
partial and full checksums of a file (`checksum_file` of the file at the
scan's compare size, resp. `CompareMode::Full`) are abstracted as oracle
functions `FileR → Option Hash`; `none` models an open failure (`?` in
the source), a `Hash` is an opaque `Nat`. -/

abbrev Hash := Nat

abbrev RecordIndex := Nat

structure FileR where
  path : List Nat
  ext : Option (List Nat)
  size : Nat
  ino : Nat
  deriving DecidableEq, Repr

instance : Inhabited FileR := ⟨⟨[], none, 0, 0⟩⟩

/-- Model of `ext_hash`, given the bytes of `path.extension()` (or none):
6-bit-per-byte fold into a `u32`. -/
def ext_hash (ext : Option (List Nat)) : Nat :=
  match ext with
  | none => 0
  | some bs =>
    bs.foldl
      (fun result x =>
        if x &&& 64 ≠ 0 then
          ((result <<< 6) % 4294967296) ||| (x ||| 32)
        else
          ((result <<< 6) % 4294967296) ||| (x &&& 15))
      0

inductive PreviousScanned where
  | Index (i : RecordIndex) : PreviousScanned
  | Hash (s : List Hash) : PreviousScanned
  deriving DecidableEq, Repr

/-- Model of `HashSet::insert` on the insertion-ordered model of `HashSet<Hash>`. -/
def hsInsert (s : List Hash) (h : Hash) : List Hash :=
  if h ∈ s then s else s ++ [h]

structure DupState where
  records : List FileR
  inode_set : List Nat
  set : List ((Nat × Nat) × PreviousScanned)
  hash2files : List (Hash × List RecordIndex)
  full_hash2files : List (Hash × List RecordIndex)
  scanned : Nat
  duplicated : Nat
  deriving DecidableEq, Repr

/-- Model of `Duplicate::new` (the parts of the state the claims concern). -/
def newDup : DupState := ⟨[], [], [], [], [], 0, 0⟩

/-- Common tail of `Duplicate::push` (the `PreviousScanned::Hash` block,
lines 260-270): insert the current hash into the slot's hash set and
register `index` in `hash2files`. -/
def pushStep2 (s : DupState) (key : Nat × Nat) (hash : Hash) (index : RecordIndex)
    (hs : List Hash) : DupState × Bool :=
  let s := { s with set := insertA s.set key (.Hash (hsInsert hs hash)) }
  match lookupA s.hash2files hash with
  | some _ =>
    ({ s with hash2files := modifyA s.hash2files hash (fun l => l ++ [index]),
              duplicated := s.duplicated + 1 }, true)
  | none =>
    ({ s with hash2files := insertA s.hash2files hash [index] }, true)

/-- Model of `Duplicate::push`.  `pHash f` models `checksum_file(f.path,
CompareMode::Part(compare_size))`.  The returned `Bool` is `false` when
push returns `Err` (a hashing failure); the accompanying state carries the
partial mutations already applied at that point, as in the source where
`self` retains them. -/
def push (pHash : FileR → Option Hash) (s : DupState) (f : FileR) : DupState × Bool :=
  if f.ino ∈ s.inode_set then (s, true)
  else
    let s := { s with inode_set := f.ino :: s.inode_set }
    let index := s.records.length
    let s := { s with records := s.records ++ [f] }
    let key := (ext_hash f.ext, f.size)
    match lookupA s.set key with
    | none => ({ s with set := insertA s.set key (.Index index) }, true)
    | some previous_result =>
      match pHash f with
      | none => (s, false)
      | some hash =>
        match previous_result with
        | .Index previous_index =>
          let previous_file := s.records.getD previous_index default
          match pHash previous_file with
          | none => (s, false)
          | some previous_hash =>
            let s := { s with
              set := insertA s.set key (.Hash [previous_hash]),
              hash2files := insertA s.hash2files previous_hash [previous_index] }
            pushStep2 s key hash index [previous_hash]
        | .Hash hs => pushStep2 s key hash index hs

/-- Model of `Duplicate::map_record_vec`: indices to record references. -/
def map_record_vec (s : DupState) (v : List RecordIndex) : List FileR :=
  v.map (fun i => s.records.getD i default)

/-- Model of `Duplicate::result`: multi-member entries of `hash2files` chained with
those of `full_hash2files`. -/
def result (s : DupState) : List (List FileR) :=
  (s.hash2files.filter (fun p => 1 < p.2.length)).map (fun p => map_record_vec s p.2)
    ++ (s.full_hash2files.filter (fun p => 1 < p.2.length)).map (fun p => map_record_vec s p.2)

/-- Model of `Duplicate::discover`: walk order is the input list order; the walker's
`File::try_from` conversion (metadata probe, empty-file rejection) is
applied upstream, so the input is the list of convertible files.  A push
failure is logged (collected in the second component) and the loop
continues with the partially mutated state. -/
def discover (filter : FileR → Bool) (pHash : FileR → Option Hash) (s : DupState)
    (files : List FileR) : DupState × List (List Nat) :=
  files.foldl
    (fun acc f =>
      let st := { acc.1 with scanned := acc.1.scanned + 1 }
      if filter f then
        match push pHash st f with
        | (st', true) => (st', acc.2)
        | (st', false) => (st', acc.2 ++ [f.path])
      else (st, acc.2))
    (s, [])

/-- The `full_checksum_map` accumulation inside `Duplicate::verify`:
group the indices of one partial-hash entry by full-content hash
(`fHash f` models `checksum_file(f.path, CompareMode::Full)`; `none`
aborts with `Err` via `?`). -/
def groupByFull (records : List FileR) (fHash : FileR → Option Hash)
    (vec : List RecordIndex) : Option (List (Hash × List RecordIndex)) :=
  vec.foldlM
    (fun acc i =>
      match fHash (records.getD i default) with
      | none => none
      | some c =>
        some (match lookupA acc c with
          | some _ => modifyA acc c (fun l => l ++ [i])
          | none => acc ++ [(c, [i])]))
    []

/-- One step of the `full_checksum_map.into_iter()` merge loop of
`Duplicate::verify`: `old_array.append(&mut array)` on an existing
binding, else `insert`. -/
def mergeStep (acc : List (Hash × List RecordIndex)) (p : Hash × List RecordIndex) :
    List (Hash × List RecordIndex) :=
  match lookupA acc p.1 with
  | some _ => modifyA acc p.1 (fun l => l ++ p.2)
  | none => acc ++ [p]

/-- The `full_checksum_map.into_iter()` merge loop of `Duplicate::verify`:
append each group into `full_hash2files`, merging with an existing list. -/
def mergeFull (full : List (Hash × List RecordIndex))
    (groups : List (Hash × List RecordIndex)) : List (Hash × List RecordIndex) :=
  groups.foldl mergeStep full

/-- The entry loop of `Duplicate::verify`, threading the rebuilt
`hash2files`, the growing `full_hash2files` and the conflict counter. -/
def verifyGo (records : List FileR) (fHash : FileR → Option Hash) :
    List (Hash × List RecordIndex) → List (Hash × List RecordIndex) → Nat →
    Option (List (Hash × List RecordIndex) × List (Hash × List RecordIndex) × Nat)
  | [], full, cc => some ([], full, cc)
  | (h, vec) :: rest, full, cc =>
    if vec.length = 1 then
      match verifyGo records fHash rest full cc with
      | none => none
      | some (l, full', cc') => some ((h, vec) :: l, full', cc')
    else
      match groupByFull records fHash vec with
      | none => none
      | some groups =>
        if 1 < groups.length then
          match verifyGo records fHash rest (mergeFull full groups) (cc + groups.length) with
          | none => none
          | some (l, full', cc') => some ((h, []) :: l, full', cc')
        else
          match verifyGo records fHash rest full cc with
          | none => none
          | some (l, full', cc') => some ((h, vec) :: l, full', cc')

/-- Model of `Duplicate::verify`; `none` models the `Err` return (a `?` on a failing
full checksum aborts the whole verification). -/
def verify (fHash : FileR → Option Hash) (s : DupState) : Option (DupState × Nat) :=
  match verifyGo s.records fHash s.hash2files s.full_hash2files 0 with
  | none => none
  | some (h2f, full, cc) =>
    some ({ s with hash2files := h2f, full_hash2files := full }, cc)

/-! ## `d2fn/src/inventory.rs` — the inventory codec

`DuplicateFile`/`DuplicateGroup` as in the source; a `D2fnPath` is its raw
byte vector.  The external `bincode` crate with
`bincode::config::standard()` is modelled from its documented wire format:
variable-length integer encoding (a value below 251 is one byte; `0xFB`
then 2 little-endian bytes below `2^16`; `0xFC` then 4 bytes below `2^32`;
`0xFD` then 8 bytes below `2^64`), and a `Vec` is its varint length
followed by its elements. -/

structure DuplicateFile where
  ino : Nat
  path : List Nat
  deriving DecidableEq, Repr

structure DuplicateGroup where
  files : List DuplicateFile
  deriving DecidableEq, Repr

def varintEnc (n : Nat) : List Nat :=
  if n < 251 then [n]
  else if n < 65536 then [251, n % 256, n / 256 % 256]
  else if n < 4294967296 then
    [252, n % 256, n / 256 % 256, n / 65536 % 256, n / 16777216 % 256]
  else
    [253, n % 256, n / 256 % 256, n / 65536 % 256, n / 16777216 % 256,
     n / 4294967296 % 256, n / 1099511627776 % 256,
     n / 281474976710656 % 256, n / 72057594037927936 % 256]

def varintDec : List Nat → Option (Nat × List Nat)
  | [] => none
  | b :: rest =>
    if b < 251 then some (b, rest)
    else if b = 251 then
      match rest with
      | b0 :: b1 :: r => some (b0 + 256 * b1, r)
      | _ => none
    else if b = 252 then
      match rest with
      | b0 :: b1 :: b2 :: b3 :: r =>
        some (b0 + 256 * b1 + 65536 * b2 + 16777216 * b3, r)
      | _ => none
    else if b = 253 then
      match rest with
      | b0 :: b1 :: b2 :: b3 :: b4 :: b5 :: b6 :: b7 :: r =>
        some (b0 + 256 * b1 + 65536 * b2 + 16777216 * b3 + 4294967296 * b4
          + 1099511627776 * b5 + 281474976710656 * b6 + 72057594037927936 * b7, r)
      | _ => none
    else none

/-- bincode encoding of a `DuplicateFile` (u64 `ino`, then the `Vec<u8>`
of `D2fnPath`). -/
def encodeFile (f : DuplicateFile) : List Nat :=
  varintEnc f.ino ++ varintEnc f.path.length ++ f.path

/-- bincode encoding of a `DuplicateGroup` (`Vec<DuplicateFile>`). -/
def encodeGroup (g : DuplicateGroup) : List Nat :=
  varintEnc g.files.length ++ (g.files.map encodeFile).flatten

def decodeFile (bs : List Nat) : Option (DuplicateFile × List Nat) :=
  match varintDec bs with
  | none => none
  | some (ino, r1) =>
    match varintDec r1 with
    | none => none
    | some (len, r2) =>
      if r2.length < len then none
      else some (⟨ino, r2.take len⟩, r2.drop len)

def decodeFiles : Nat → List Nat → Option (List DuplicateFile × List Nat)
  | 0, bs => some ([], bs)
  | n + 1, bs =>
    match decodeFile bs with
    | none => none
    | some (f, r) =>
      match decodeFiles n r with
      | none => none
      | some (fs, r') => some (f :: fs, r')

def decodeGroup (bs : List Nat) : Option (DuplicateGroup × List Nat) :=
  match varintDec bs with
  | none => none
  | some (n, r) =>
    match decodeFiles n r with
    | none => none
    | some (fs, r') => some (⟨fs⟩, r')

/-- The reader's and writer's scratch buffers are both 1 MiB. -/
def BUF_CAP : Nat := 1048576

def u32le (n : Nat) : List Nat :=
  [n % 256, n / 256 % 256, n / 65536 % 256, n / 16777216 % 256]

/-- One iteration of `InventoryWriter::export`'s body loop
(`InventoryWriter::encode`): `bincode::encode_into_slice` into the 1 MiB
buffer (fails when the encoding does not fit), then the `u32` length
prefix and the payload bytes. -/
def encodeFrame (g : DuplicateGroup) : Option (List Nat) :=
  let payload := encodeGroup g
  if payload.length ≤ BUF_CAP then some (u32le payload.length ++ payload)
  else none

/-- Model of `InventoryWriter::export` (after `create`): the final file contents.
The rewritten header is `version = 1`, `offset = 2 + size_of::<usize>()`,
then the group count as a little-endian `u32` (`count` is a `u32`
accumulator, hence the `% 2^32`). -/
def exportFile (groups : List DuplicateGroup) : Option (List Nat) :=
  match groups.mapM encodeFrame with
  | none => none
  | some frames =>
    some ([1, 2 + 8] ++ u32le (groups.length % 4294967296) ++ frames.flatten)

/-- Model of `InventoryReader::read_header`: `u8` version, `u8` offset, `u32`
little-endian count. -/
def read_header : List Nat → Option (Nat × Nat × Nat × List Nat)
  | v :: o :: c0 :: c1 :: c2 :: c3 :: rest =>
    some (v, o, c0 + 256 * c1 + 65536 * c2 + 16777216 * c3, rest)
  | _ => none

def readU32le : List Nat → Option (Nat × List Nat)
  | b0 :: b1 :: b2 :: b3 :: r => some (b0 + 256 * b1 + 65536 * b2 + 16777216 * b3, r)
  | _ => none

/-- Outcome of one `InventoryReader::decode` call.  `panic` is the
out-of-bounds slice `&mut buf[..size as usize]` when `size` exceeds the
1 MiB buffer; `err` is an `Err` return (`read_u32` failure, `read_exact`
failure, or a bincode decode error). -/
inductive ReadOutcome where
  | panic : ReadOutcome
  | err : ReadOutcome
  | ok (g : DuplicateGroup) (rest : List Nat) : ReadOutcome
  deriving DecidableEq, Repr

/-- Model of `InventoryReader::decode`: read the `u32` length prefix, slice the
buffer to `size` (out of bounds when `size > BUF_CAP`), `read_exact`,
then `bincode::decode_from_slice` on the filled prefix (trailing bytes of
a short decode are discarded, as in `let (data, _) = ...`). -/
def decode (stream : List Nat) : ReadOutcome :=
  match readU32le stream with
  | none => .err
  | some (size, rest) =>
    if BUF_CAP < size then .panic
    else if rest.length < size then .err
    else
      match decodeGroup (rest.take size) with
      | some (g, _) => .ok g (rest.drop size)
      | none => .err

/-- Model of `InventoryReader::next`: `None` once `read_count` reaches the header
count, otherwise the outcome of `decode` on the remaining stream. -/
def readerNext (count read_count : Nat) (stream : List Nat) : Option ReadOutcome :=
  if read_count < count then some (decode stream) else none

/-! ## `src/main.rs` — `dedup`, the link applier

The filesystem is modelled as an association list from path bytes to
inode; `remove_file` fails when the path is absent, `hard_link` fails
when the source is absent or the destination exists.  The trace records
every syscall the applier attempts. -/

inductive FsAction where
  | unlink (p : List Nat) : FsAction
  | link (src dst : List Nat) : FsAction
  deriving DecidableEq, Repr

abbrev Fs := List (List Nat × Nat)

def removeA {α β : Type} [DecidableEq α] : List (α × β) → α → List (α × β)
  | [], _ => []
  | (a, b) :: t, k => if a = k then t else (a, b) :: removeA t k

def remove_file (fs : Fs) (p : List Nat) : Option Fs :=
  match lookupA fs p with
  | some _ => some (removeA fs p)
  | none => none

def hard_link (fs : Fs) (src dst : List Nat) : Option Fs :=
  match lookupA fs src with
  | none => none
  | some ino =>
    match lookupA fs dst with
    | some _ => none
    | none => some (fs ++ [(dst, ino)])

/-- One non-keeper file inside `dedup`'s group loop:
`std::fs::remove_file(destination).and_then(|_| hard_link(source,
destination))`, errors logged and processing continues. -/
def dedupFile (fs : Fs) (source dst : List Nat) : Fs × List FsAction :=
  match remove_file fs dst with
  | none => (fs, [.unlink dst])
  | some fs1 =>
    match hard_link fs1 source dst with
    | none => (fs1, [.unlink dst, .link source dst])
    | some fs2 => (fs2, [.unlink dst, .link source dst])

/-- The `for dup in rest` loop of one group inside `dedup`. -/
def dedupRest (fs : Fs) (source : List Nat) : List DuplicateFile → Fs × List FsAction
  | [] => (fs, [])
  | dup :: rest =>
    let r := dedupFile fs source dup.path
    let r2 := dedupRest r.1 source rest
    (r2.1, r.2 ++ r2.2)

/-- One group inside `dedup`: the first file is the keeper. -/
def dedupGroup (fs : Fs) (g : DuplicateGroup) : Fs × List FsAction :=
  match g.files with
  | [] => (fs, [])
  | first :: rest => dedupRest fs first.path rest

/-- Model of `dedup`: apply every successfully decoded group in order. -/
def dedup (fs : Fs) : List DuplicateGroup → Fs × List FsAction
  | [] => (fs, [])
  | g :: gs =>
    let r := dedupGroup fs g
    let r2 := dedup r.1 gs
    (r2.1, r.2 ++ r2.2)

/-! ## Unfolding lemmas for the `checksum_file` loop -/

theorem csLoop_done {c cs : Nat} {remaining buffer acc : List Nat} {hashed : Nat}
    (h : min c remaining.length = 0) :
    csLoop c cs remaining buffer acc hashed = some acc := by
  rw [csLoop]
  simp only [h, dif_pos]

theorem csLoop_underflow {c cs : Nat} {remaining buffer acc : List Nat} {hashed : Nat}
    (h0 : min c remaining.length ≠ 0) (h1 : cs < hashed) :
    csLoop c cs remaining buffer acc hashed = none := by
  rw [csLoop]
  simp only [dif_neg h0, if_pos h1]

theorem csLoop_last {c cs : Nat} {remaining buffer acc : List Nat} {hashed : Nat}
    (h0 : min c remaining.length ≠ 0) (h1 : ¬ cs < hashed)
    (h2 : (hashed + min c remaining.length) % 18446744073709551616 = cs) :
    csLoop c cs remaining buffer acc hashed =
      some (acc ++ (remaining.take (min c remaining.length)
        ++ buffer.drop (min c remaining.length)).take (min (cs - hashed) c)) := by
  rw [csLoop]
  simp only [dif_neg h0, if_neg h1, if_pos h2]

theorem csLoop_cont {c cs : Nat} {remaining buffer acc : List Nat} {hashed : Nat}
    (h0 : min c remaining.length ≠ 0) (h1 : ¬ cs < hashed)
    (h2 : (hashed + min c remaining.length) % 18446744073709551616 ≠ cs) :
    csLoop c cs remaining buffer acc hashed =
      csLoop c cs (remaining.drop (min c remaining.length))
        (remaining.take (min c remaining.length) ++ buffer.drop (min c remaining.length))
        (acc ++ (remaining.take (min c remaining.length)
          ++ buffer.drop (min c remaining.length)).take (min (cs - hashed) c))
        ((hashed + min c remaining.length) % 18446744073709551616) := by
  rw [csLoop]
  simp only [dif_neg h0, if_neg h1, if_neg h2]

/-- For a non-empty file no longer than one chunk, Full mode hashes the
entire scratch buffer: the content followed by the zero padding left from
the buffer's initialization. -/
theorem checksum_full_small (c : Nat) (content : List Nat)
    (h1 : 0 < content.length) (h2 : content.length ≤ c) (h3 : c < USIZE_MAX) :
    checksum_file c .Full content =
      some (content ++ List.replicate (c - content.length) 0) := by
  unfold checksum_file compareSizeOf
  have hmin : min c content.length = content.length := Nat.min_eq_right h2
  have h0 : min c content.length ≠ 0 := by omega
  have hnu : ¬ USIZE_MAX < 0 := by omega
  have hne : (0 + min c content.length) % 18446744073709551616 ≠ USIZE_MAX := by
    rw [hmin]
    have : content.length % 18446744073709551616 = content.length :=
      Nat.mod_eq_of_lt (by unfold USIZE_MAX at h3; omega)
    simp only [Nat.zero_add, this]
    unfold USIZE_MAX at h3 ⊢
    omega
  rw [csLoop_cont h0 hnu hne]
  have hdrop : content.drop (min c content.length) = [] := by
    rw [hmin, List.drop_length]
  have htake : content.take (min c content.length) = content := by
    rw [hmin, List.take_length]
  have hbuf : (List.replicate c (0 : Nat)).drop (min c content.length) =
      List.replicate (c - content.length) 0 := by
    rw [hmin, List.drop_replicate]
  have hchl : min (USIZE_MAX - 0) c = c := Nat.min_eq_right (by omega)
  rw [hdrop, htake, hbuf, hchl]
  have hlen : (content ++ List.replicate (c - content.length) (0 : Nat)).length = c := by
    simp only [List.length_append, List.length_replicate]
    omega
  have htk : (content ++ List.replicate (c - content.length) (0 : Nat)).take c =
      content ++ List.replicate (c - content.length) 0 :=
    List.take_of_length_le (by omega)
  rw [htk]
  rw [csLoop_done (by simp)]
  simp

/-- Part(1) on a file one byte longer than the chunk size: after the first
read `hashed_size` has overshot the cap, and the second iteration's
`compare_size - hashed_size` underflows. -/
theorem checksum_part_underflow (c : Nat) (h2 : 2 ≤ c) (h64 : c < 18446744073709551616) :
    checksum_file c (.Part 1) (List.replicate (c + 1) 0) = none := by
  unfold checksum_file compareSizeOf
  have hlen : (List.replicate (c + 1) (0 : Nat)).length = c + 1 := List.length_replicate _ _
  have hmin : min c (List.replicate (c + 1) (0 : Nat)).length = c := by
    rw [hlen]; omega
  have h0 : min c (List.replicate (c + 1) (0 : Nat)).length ≠ 0 := by omega
  have h1 : ¬ (1 : Nat) < 0 := by omega
  have hne : (0 + min c (List.replicate (c + 1) (0 : Nat)).length) %
      18446744073709551616 ≠ 1 := by
    rw [hmin, Nat.zero_add, Nat.mod_eq_of_lt h64]
    omega
  rw [csLoop_cont h0 h1 hne]
  have hrem : (List.replicate (c + 1) (0 : Nat)).drop
      (min c (List.replicate (c + 1) (0 : Nat)).length) = List.replicate 1 0 := by
    rw [hmin, List.drop_replicate]
    congr 1
    omega
  rw [hrem]
  have h0' : min c (List.replicate 1 (0 : Nat)).length ≠ 0 := by
    simp only [List.length_replicate]
    omega
  have h1' : (1 : Nat) < (0 + min c (List.replicate (c + 1) (0 : Nat)).length) %
      18446744073709551616 := by
    rw [hmin, Nat.zero_add, Nat.mod_eq_of_lt h64]
    omega
  exact csLoop_underflow h0' h1'

/-- C1: FALSIFIED — `checksum_file` hashes `buffer[..current_hash_len]`
regardless of how many bytes the read returned, so in Full mode a 1-byte
file hashes the whole zero-initialized 1 MiB buffer, not the file content;
the files `[97]` and `[97, 0]` hash identically, contradicting the claimed
"hash of exactly the whole file content". -/
theorem C1_checksum_pads_buffer :
    checksum_file CHUNK_SIZE .Full [97] =
        some (97 :: List.replicate (CHUNK_SIZE - 1) 0)
      ∧ checksum_file CHUNK_SIZE .Full [97, 0] = checksum_file CHUNK_SIZE .Full [97]
      ∧ checksum_file CHUNK_SIZE .Full [97] ≠ some [97] := by
  have e1 := checksum_full_small CHUNK_SIZE [97]
    (by norm_num) (by norm_num [CHUNK_SIZE]) (by norm_num [CHUNK_SIZE, USIZE_MAX])
  have e2 := checksum_full_small CHUNK_SIZE [97, 0]
    (by norm_num) (by norm_num [CHUNK_SIZE]) (by norm_num [CHUNK_SIZE, USIZE_MAX])
  simp only [List.length_cons, List.length_nil] at e1 e2
  have hr : List.replicate (CHUNK_SIZE - 1) (0 : Nat) =
      0 :: List.replicate (CHUNK_SIZE - 2) 0 := by
    have h12 : CHUNK_SIZE - 1 = (CHUNK_SIZE - 2) + 1 := by norm_num [CHUNK_SIZE]
    rw [h12, List.replicate_succ]
  have h01 : (0 : Nat) + 1 = 1 := rfl
  have h11 : (1 : Nat) + 1 = 2 := rfl
  rw [h01] at e1
  rw [h11] at e2
  refine ⟨by simpa using e1, ?_, ?_⟩
  · rw [e1, e2, hr]
    simp
  · rw [e1]
    intro h
    have h2 := Option.some.inj h
    have h3 := congrArg List.length h2
    simp only [List.length_append, List.length_replicate, List.length_cons,
      List.length_nil] at h3
    norm_num [CHUNK_SIZE] at h3

/-- C8: FALSIFIED — in Part(N) mode the running `hashed_size` advances by
the full read length, which can pass the cap without hitting it exactly;
at `N = 1` on a file of `CHUNK_SIZE + 1` bytes the second iteration's
`compare_size - hashed_size` underflows (a panic in debug profiles). -/
theorem C8_part_mode_underflows :
    checksum_file CHUNK_SIZE (.Part 1) (List.replicate (CHUNK_SIZE + 1) 0) = none :=
  checksum_part_underflow CHUNK_SIZE (by decide) (by decide)

/-- C3: FALSIFIED on the header-size byte — exporting any sequence of
groups writes `version = 1` and the `u32` little-endian count at offset 2
as claimed, but the second byte is `2 + size_of::<usize>() = 10`, not the
claimed header size 6 (the header really occupies 6 bytes: the count is a
`u32`, so the expression inherited from the `usize`-count variant
overstates it). -/
theorem C3_export_header_eval :
    exportFile [] = some [1, 10, 0, 0, 0, 0]
      ∧ exportFile [⟨[⟨1, [120]⟩, ⟨2, [121]⟩]⟩] =
          some [1, 10, 1, 0, 0, 0, 7, 0, 0, 0, 2, 1, 1, 120, 2, 1, 121]
      ∧ (∀ bytes, exportFile [] = some bytes → bytes.getD 1 0 ≠ 6) := by
  refine ⟨by decide, by decide, ?_⟩
  intro bytes h
  have : bytes = [1, 10, 0, 0, 0, 0] := by
    have h0 : exportFile [] = some [1, 10, 0, 0, 0, 0] := by decide
    rw [h0] at h
    exact (Option.some.inj h).symm
  rw [this]
  decide

/-- C9: FALSIFIED — a group whose 4-byte length field exceeds the 1 MiB
buffer is not reported as an error: `&mut buf[..size as usize]` slices out
of bounds and panics.  Concretely, a stream whose first frame announces
`1048577` bytes makes `next()` panic. -/
theorem C9_oversized_length_panics :
    readerNext 1 0 [1, 0, 16, 0] = some .panic := by decide

/-- C9 (amended): whenever the length field fits the 1 MiB buffer (or is
absent/truncated), `next()` yields `None` or a non-panicking outcome:
errors are reported as `Err`. -/
theorem C9_no_panic_when_length_bounded (count read_count : Nat) (stream : List Nat)
    (hsz : ∀ size rest, readU32le stream = some (size, rest) → size ≤ BUF_CAP) :
    readerNext count read_count stream ≠ some .panic := by
  unfold readerNext
  by_cases hc : read_count < count
  · simp only [if_pos hc]
    unfold decode
    cases hu : readU32le stream with
    | none => simp
    | some p =>
      obtain ⟨size, rest⟩ := p
      have hle := hsz size rest hu
      have : ¬ BUF_CAP < size := by omega
      simp only [if_neg this]
      by_cases hrl : rest.length < size
      · simp [hrl]
      · simp only [if_neg hrl]
        cases decodeGroup (rest.take size) with
        | none => simp
        | some q => simp
  · simp [hc]

/-- C9 (amended) witness at a concrete truncated-but-bounded stream. -/
theorem C9_no_panic_when_length_bounded_witness :
    readerNext 1 0 [4, 0, 0, 0] ≠ some ReadOutcome.panic :=
  C9_no_panic_when_length_bounded 1 0 [4, 0, 0, 0]
    (by
      intro size rest h
      have h4 : 4 = size ∧ rest = ([] : List Nat) := by
        simpa [readU32le] using h
      rw [← h4.1]
      decide)

/-- C7: every group yielded by `result` has at least two members; entries
of the two maps with list length 0 or 1 are filtered out. -/
theorem C7_result_no_singletons (s : DupState) (g : List FileR)
    (hg : g ∈ result s) : 2 ≤ g.length := by
  unfold result at hg
  rcases List.mem_append.1 hg with h | h <;>
  · obtain ⟨p, hp, hq⟩ := List.mem_map.1 h
    have h2 := (List.mem_filter.1 hp).2
    simp only [decide_eq_true_eq] at h2
    rw [← hq]
    simp only [map_record_vec, List.length_map]
    omega

/-- C7 witness: a concrete engine state with one two-member entry. -/
theorem C7_result_no_singletons_witness :
    2 ≤ (map_record_vec
      ⟨[⟨[97], none, 5, 1⟩, ⟨[98], none, 5, 2⟩], [], [], [(7, [0, 1])], [], 0, 0⟩
      [0, 1]).length :=
  C7_result_no_singletons
    ⟨[⟨[97], none, 5, 1⟩, ⟨[98], none, 5, 2⟩], [], [], [(7, [0, 1])], [], 0, 0⟩
    _ (by decide)

/-- C5: FALSIFIED — `dedup` performs no inode check at all: on the group
`[{ino 1, path p}, {ino 1, path p}]` over a filesystem where `p` has
inode 1 (destination and keeper share an inode — here they are the same
entry), the applier still unlinks the destination, i.e. the keeper itself,
and the subsequent hardlink fails because the source is gone: the file is
lost instead of the claimed silent skip. -/
theorem C5_dedup_unlinks_shared_inode :
    (FsAction.unlink [112]) ∈ (dedup [([112], 1)] [⟨[⟨1, [112]⟩, ⟨1, [112]⟩]⟩]).2
      ∧ (dedup [([112], 1)] [⟨[⟨1, [112]⟩, ⟨1, [112]⟩]⟩]).1 = [] := by decide

/-! Supporting lemmas for the amended C5. -/

theorem lookupA_not_mem_keys {α β : Type} [DecidableEq α] {l : List (α × β)} {k : α}
    (h : k ∉ l.map Prod.fst) : lookupA l k = none := by
  induction l with
  | nil => rfl
  | cons q t ih =>
    obtain ⟨a, b⟩ := q
    simp only [List.map_cons, List.mem_cons] at h
    push_neg at h
    simp only [lookupA]
    have : ¬ a = k := fun he => h.1 (he ▸ rfl)
    simp [this, ih h.2]

theorem lookupA_removeA_ne {α β : Type} [DecidableEq α] (l : List (α × β)) (k d : α)
    (h : k ≠ d) : lookupA (removeA l d) k = lookupA l k := by
  induction l with
  | nil => rfl
  | cons q t ih =>
    obtain ⟨a, b⟩ := q
    simp only [removeA, lookupA]
    by_cases had : a = d
    · subst had
      have : ¬ a = k := fun he => h (he ▸ rfl)
      simp [this, lookupA]
    · simp only [if_neg had, lookupA]
      by_cases hak : a = k
      · simp [hak]
      · simp [hak, ih]

theorem lookupA_removeA_self {α β : Type} [DecidableEq α] (l : List (α × β)) (d : α)
    (h : (l.map Prod.fst).Nodup) : lookupA (removeA l d) d = none := by
  induction l with
  | nil => rfl
  | cons q t ih =>
    obtain ⟨a, b⟩ := q
    simp only [List.map_cons, List.nodup_cons] at h
    simp only [removeA]
    by_cases had : a = d
    · subst had
      simp only [if_pos rfl]
      exact lookupA_not_mem_keys h.1
    · simp only [if_neg had, lookupA, if_neg had]
      exact ih h.2

theorem dedupFile_trace (fs : Fs) (src dst : List Nat) :
    (dedupFile fs src dst).2 = [.unlink dst]
      ∨ (dedupFile fs src dst).2 = [.unlink dst, .link src dst] := by
  unfold dedupFile
  split
  · exact Or.inl rfl
  · split
    · exact Or.inr rfl
    · exact Or.inr rfl

theorem mem_dedupFile_trace {fs : Fs} {src dst : List Nat} {act : FsAction}
    (h : act ∈ (dedupFile fs src dst).2) :
    act = .unlink dst ∨ act = .link src dst := by
  rcases dedupFile_trace fs src dst with h' | h' <;> rw [h'] at h <;> simp at h <;> tauto

theorem mem_dedupRest_trace {fs : Fs} {src : List Nat} {rest : List DuplicateFile}
    {act : FsAction} (h : act ∈ (dedupRest fs src rest).2) :
    ∃ dup ∈ rest, act = .unlink dup.path ∨ act = .link src dup.path := by
  induction rest generalizing fs with
  | nil => simp [dedupRest] at h
  | cons dup rest ih =>
    simp only [dedupRest, List.mem_append] at h
    rcases h with h | h
    · exact ⟨dup, List.mem_cons_self _ _, mem_dedupFile_trace h⟩
    · obtain ⟨d, hd, hact⟩ := ih h
      exact ⟨d, List.mem_cons_of_mem _ hd, hact⟩

theorem mem_dedupGroup_trace {fs : Fs} {g : DuplicateGroup} {act : FsAction}
    (h : act ∈ (dedupGroup fs g).2) :
    ∃ first rest, g.files = first :: rest ∧
      ∃ dup ∈ rest, act = .unlink dup.path ∨ act = .link first.path dup.path := by
  unfold dedupGroup at h
  cases hg : g.files with
  | nil => rw [hg] at h; simp at h
  | cons first rest =>
    rw [hg] at h
    exact ⟨first, rest, rfl, mem_dedupRest_trace h⟩

theorem mem_dedup_trace {fs : Fs} {groups : List DuplicateGroup} {act : FsAction}
    (h : act ∈ (dedup fs groups).2) :
    ∃ g ∈ groups, ∃ first rest, g.files = first :: rest ∧
      ∃ dup ∈ rest, act = .unlink dup.path ∨ act = .link first.path dup.path := by
  induction groups generalizing fs with
  | nil => simp [dedup] at h
  | cons g gs ih =>
    simp only [dedup, List.mem_append] at h
    rcases h with h | h
    · exact ⟨g, List.mem_cons_self _ _, mem_dedupGroup_trace h⟩
    · obtain ⟨g', hg', hrest⟩ := ih h
      exact ⟨g', List.mem_cons_of_mem _ hg', hrest⟩

/-- C5 (amended): the applier only ever unlinks non-keeper destination
paths (so a keeper whose path is not repeated as a destination is never
unlinked), and it performs no inode check: an already-hardlinked
destination is still unlinked and re-linked, though on a well-formed
filesystem this leaves every path mapped to the same inode as before. -/
theorem C5_keeper_safe_and_relink_preserves :
    (∀ (fs : Fs) (groups : List DuplicateGroup) (p : List Nat),
        FsAction.unlink p ∈ (dedup fs groups).2 →
        ∃ g ∈ groups, ∃ first rest, g.files = first :: rest ∧
          p ∈ rest.map DuplicateFile.path)
    ∧ (∀ (fs : Fs) (k d : List Nat) (ino : Nat),
        (fs.map Prod.fst).Nodup → k ≠ d →
        lookupA fs k = some ino → lookupA fs d = some ino →
        (dedupGroup fs ⟨[⟨ino, k⟩, ⟨ino, d⟩]⟩).2 = [.unlink d, .link k d]
          ∧ ∀ q, lookupA (dedupGroup fs ⟨[⟨ino, k⟩, ⟨ino, d⟩]⟩).1 q = lookupA fs q) := by
  constructor
  · intro fs groups p h
    obtain ⟨g, hg, first, rest, hfiles, dup, hdup, hact⟩ := mem_dedup_trace h
    refine ⟨g, hg, first, rest, hfiles, ?_⟩
    rcases hact with hact | hact
    · obtain rfl : p = dup.path := by
        injection hact
      exact List.mem_map.2 ⟨dup, hdup, rfl⟩
    · cases hact
  · intro fs k d ino hnd hkd hk hd
    have hfile : dedupFile fs k d = (removeA fs d ++ [(d, ino)], [.unlink d, .link k d]) := by
      unfold dedupFile remove_file hard_link
      rw [hd]
      simp only
      rw [lookupA_removeA_ne fs k d hkd, hk, lookupA_removeA_self fs d hnd]
    have hgrp : dedupGroup fs ⟨[⟨ino, k⟩, ⟨ino, d⟩]⟩ =
        (removeA fs d ++ [(d, ino)], [.unlink d, .link k d]) := by
      unfold dedupGroup dedupRest
      simp only [hfile, dedupRest, List.append_nil]
    rw [hgrp]
    refine ⟨rfl, ?_⟩
    intro q
    by_cases hq : q = d
    · subst hq
      have h1 : lookupA (removeA fs q) q = none := lookupA_removeA_self fs q hnd
      rw [lookupA_append_right _ h1, hd]
      simp [lookupA]
    · have h1 : lookupA (removeA fs d) q = lookupA fs q := lookupA_removeA_ne fs q d hq
      cases hfsq : lookupA fs q with
      | some b =>
        rw [lookupA_append_left _ (h1.trans hfsq)]
      | none =>
        rw [lookupA_append_right _ (h1.trans hfsq)]
        have hdq : ¬ d = q := fun he => hq he.symm
        simp [lookupA, hdq]

/-- C5 (amended) witness: a filesystem with two hardlinked names; the
applier re-links the destination and the path-to-inode map is unchanged. -/
theorem C5_keeper_safe_and_relink_preserves_witness :
    (∃ g ∈ [(⟨[⟨3, [107]⟩, ⟨3, [100]⟩]⟩ : DuplicateGroup)], ∃ first rest,
        g.files = first :: rest ∧ [100] ∈ rest.map DuplicateFile.path)
    ∧ lookupA (dedupGroup [([107], 3), ([100], 3)] ⟨[⟨3, [107]⟩, ⟨3, [100]⟩]⟩).1 [100]
        = lookupA [([107], 3), ([100], 3)] [100] :=
  ⟨C5_keeper_safe_and_relink_preserves.1 [([107], 3), ([100], 3)]
      [⟨[⟨3, [107]⟩, ⟨3, [100]⟩]⟩] [100] (by decide),
   (C5_keeper_safe_and_relink_preserves.2 [([107], 3), ([100], 3)] [107] [100] 3
      (by decide) (by decide) (by decide) (by decide)).2 [100]⟩

/-! Supporting lemmas for C6. -/

/-- Helper: `push` never touches the `scanned` counter. -/
theorem push_scanned (pHash : FileR → Option Hash) (s : DupState) (f : FileR) :
    (push pHash s f).1.scanned = s.scanned := by
  unfold push pushStep2
  dsimp only
  repeat' split <;> try rfl

/-- A failing full checksum of any grouped index makes the
`full_checksum_map` accumulation abort. -/
theorem groupByFull_none {records : List FileR} {fHash : FileR → Option Hash}
    {vec : List RecordIndex} {i : RecordIndex} (hi : i ∈ vec)
    (hf : fHash (records.getD i default) = none) :
    groupByFull records fHash vec = none := by
  unfold groupByFull
  suffices h : ∀ acc, vec.foldlM
      (fun acc i =>
        match fHash (records.getD i default) with
        | none => none
        | some c =>
          some (match lookupA acc c with
            | some _ => modifyA acc c (fun l => l ++ [i])
            | none => acc ++ [(c, [i])]))
      acc = none from h []
  induction vec with
  | nil => simp at hi
  | cons j t ih =>
    intro acc
    rw [List.foldlM_cons]
    rcases List.mem_cons.1 hi with rfl | hmem
    · rw [hf]
      rfl
    · cases hj : fHash (records.getD j default) with
      | none => rfl
      | some c =>
        simp only [Option.bind_eq_bind, Option.some_bind]
        exact ih hmem _

/-- A failing full checksum inside any entry of length ≠ 1 aborts the
whole entry loop. -/
theorem verifyGo_none {records : List FileR} {fHash : FileR → Option Hash}
    {entries : List (Hash × List RecordIndex)}
    (h : ∃ p ∈ entries, p.2.length ≠ 1 ∧
      ∃ i ∈ p.2, fHash (records.getD i default) = none) :
    ∀ full cc, verifyGo records fHash entries full cc = none := by
  induction entries with
  | nil => simp at h
  | cons e rest ih =>
    intro full cc
    obtain ⟨p, hp, hlen, i, hi, hf⟩ := h
    obtain ⟨h1, vec⟩ := e
    rcases List.mem_cons.1 hp with rfl | hmem
    · simp only [verifyGo, if_neg hlen]
      rw [groupByFull_none hi hf]
    · have ihh : ∀ full cc, verifyGo records fHash rest full cc = none :=
        ih ⟨p, hmem, hlen, i, hi, hf⟩
      simp only [verifyGo]
      by_cases hv : vec.length = 1
      · simp only [if_pos hv, ihh]
      · simp only [if_neg hv]
        cases groupByFull records fHash vec with
        | none => rfl
        | some groups =>
          simp only
          by_cases hg : 1 < groups.length
          · simp only [if_pos hg, ihh]
          · simp only [if_neg hg, ihh]

/-- C6: FALSIFIED for verification — a failing open during `verify`'s
full-content hashing aborts the whole verification with `Err` (it is not
skipped): here index 1's file (inode 2) fails to open, and `verify`
returns the error outcome instead of continuing. -/
theorem C6_verify_aborts_on_read_error :
    verify (fun f => if f.ino = 2 then none else some 0)
      ⟨[⟨[97], none, 5, 1⟩, ⟨[98], none, 5, 2⟩], [1, 2], [], [(7, [0, 1])], [], 2, 1⟩
      = none := by decide

/-- C6 (amended): per-file hashing failures during discovery are logged
and skipped and the walk continues to completion (every walked file is
still counted), but a read error during verification aborts the whole
`verify` with an error. -/
theorem C6_discover_continues_verify_aborts :
    (∀ (filt : FileR → Bool) (pHash : FileR → Option Hash) (s : DupState)
        (files : List FileR),
        ((discover filt pHash s files).1).scanned = s.scanned + files.length)
    ∧ (∀ (fHash : FileR → Option Hash) (s : DupState),
        (∃ p ∈ s.hash2files, p.2.length ≠ 1 ∧
          ∃ i ∈ p.2, fHash (s.records.getD i default) = none) →
        verify fHash s = none) := by
  constructor
  · intro filt pHash s files
    unfold discover
    suffices h : ∀ (acc : DupState × List (List Nat)),
        ((files.foldl
          (fun acc f =>
            let st := { acc.1 with scanned := acc.1.scanned + 1 }
            if filt f then
              match push pHash st f with
              | (st', true) => (st', acc.2)
              | (st', false) => (st', acc.2 ++ [f.path])
            else (st, acc.2))
          acc).1).scanned = acc.1.scanned + files.length from h (s, [])
    induction files with
    | nil => intro acc; simp
    | cons f t ih =>
      intro acc
      rw [List.foldl_cons]
      by_cases hf : filt f
      · simp only [if_pos hf]
        rcases hpush : push pHash { acc.1 with scanned := acc.1.scanned + 1 } f
          with ⟨st', b⟩
        have hsc : st'.scanned = acc.1.scanned + 1 := by
          have := push_scanned pHash { acc.1 with scanned := acc.1.scanned + 1 } f
          rw [hpush] at this
          exact this
        cases b
        · simp only []
          rw [ih (st', acc.2 ++ [f.path])]
          rw [hsc]
          simp [List.length_cons]
          omega
        · simp only []
          rw [ih (st', acc.2)]
          rw [hsc]
          simp [List.length_cons]
          omega
      · simp only [if_neg hf]
        rw [ih _]
        simp [List.length_cons]
        omega
  · intro fHash s h
    unfold verify
    rw [verifyGo_none h]

/-- C6 (amended) witness at concrete inputs. -/
theorem C6_discover_continues_verify_aborts_witness :
    ((discover (fun _ => true) (fun _ => some 0) newDup [⟨[97], none, 5, 1⟩]).1).scanned
        = newDup.scanned + 1
    ∧ verify (fun f => if f.ino = 9 then none else some 0)
        ⟨[⟨[97], none, 4, 8⟩, ⟨[98], none, 4, 9⟩], [8, 9], [], [(3, [0, 1])], [], 2, 1⟩
        = none :=
  ⟨C6_discover_continues_verify_aborts.1 (fun _ => true) (fun _ => some 0) newDup
      [⟨[97], none, 5, 1⟩],
   C6_discover_continues_verify_aborts.2 (fun f => if f.ino = 9 then none else some 0)
      ⟨[⟨[97], none, 4, 8⟩, ⟨[98], none, 4, 9⟩], [8, 9], [], [(3, [0, 1])], [], 2, 1⟩
      ⟨(3, [0, 1]), by decide, by decide, 1, by decide, by decide⟩⟩

/-! Supporting lemmas for C4: the bincode varint and framing round-trips. -/

theorem varintDec_enc (n : Nat) (rest : List Nat) (h : n < 18446744073709551616) :
    varintDec (varintEnc n ++ rest) = some (n, rest) := by
  unfold varintEnc
  by_cases h1 : n < 251
  · simp only [if_pos h1, List.cons_append, List.nil_append, varintDec, if_pos h1]
  · by_cases h2 : n < 65536
    · simp only [if_neg h1, if_pos h2, List.cons_append, List.nil_append, varintDec]
      norm_num
      omega
    · by_cases h3 : n < 4294967296
      · simp only [if_neg h1, if_neg h2, if_pos h3, List.cons_append, List.nil_append,
          varintDec]
        norm_num
        omega
      · simp only [if_neg h1, if_neg h2, if_neg h3, List.cons_append, List.nil_append,
          varintDec]
        norm_num
        omega

theorem varintEnc_length (n : Nat) : (varintEnc n).length ≤ 9 := by
  unfold varintEnc
  by_cases h1 : n < 251
  · simp [h1]
  · by_cases h2 : n < 65536
    · simp [h1, h2]
    · by_cases h3 : n < 4294967296
      · simp [h1, h2, h3]
      · simp [h1, h2, h3]

theorem decodeFile_enc (f : DuplicateFile) (rest : List Nat)
    (hino : f.ino < 18446744073709551616)
    (hlen : f.path.length < 18446744073709551616) :
    decodeFile (encodeFile f ++ rest) = some (f, rest) := by
  unfold encodeFile decodeFile
  rw [List.append_assoc, List.append_assoc, varintDec_enc _ _ hino]
  simp only
  rw [varintDec_enc _ _ hlen]
  simp only
  have h1 : ¬ (f.path ++ rest).length < f.path.length := by
    simp only [List.length_append]
    omega
  rw [if_neg h1, List.take_left, List.drop_left]

theorem decodeFiles_enc (fs : List DuplicateFile) (rest : List Nat)
    (h : ∀ f ∈ fs, f.ino < 18446744073709551616
      ∧ f.path.length < 18446744073709551616) :
    decodeFiles fs.length ((fs.map encodeFile).flatten ++ rest) = some (fs, rest) := by
  induction fs with
  | nil => simp [decodeFiles]
  | cons f t ih =>
    have hf := h f (List.mem_cons_self _ _)
    simp only [List.map_cons, List.flatten_cons, List.length_cons, List.append_assoc]
    simp only [decodeFiles]
    rw [decodeFile_enc f _ hf.1 hf.2]
    dsimp only
    rw [ih (fun g hg => h g (List.mem_cons_of_mem _ hg))]

theorem decodeGroup_enc (g : DuplicateGroup) (rest : List Nat)
    (hn : g.files.length < 18446744073709551616)
    (h : ∀ f ∈ g.files, f.ino < 18446744073709551616
      ∧ f.path.length < 18446744073709551616) :
    decodeGroup (encodeGroup g ++ rest) = some (g, rest) := by
  unfold encodeGroup decodeGroup
  rw [List.append_assoc, varintDec_enc _ _ hn]
  simp only
  rw [decodeFiles_enc _ _ h]

theorem readU32le_u32le (n : Nat) (rest : List Nat) (h : n < 4294967296) :
    readU32le (u32le n ++ rest) = some (n, rest) := by
  unfold u32le readU32le
  simp only [List.cons_append, List.nil_append]
  congr 1
  rw [Prod.mk.injEq]
  constructor
  · omega
  · rfl

/-- C4: encoding a group whose single file carries arbitrary path bytes
(in particular non-UTF-8 ones) and reading the inventory back returns the
identical group: the path bytes survive verbatim.  The size hypothesis is
what the writer's 1 MiB encode buffer requires for the export to
succeed. -/
theorem C4_path_roundtrip (b : List Nat) (ino : Nat)
    (hino : ino < 18446744073709551616) (hsz : b.length + 19 ≤ BUF_CAP)
    (_hnul : 0 ∉ b) :
    ∃ out frame, exportFile [⟨[⟨ino, b⟩]⟩] = some out
      ∧ read_header out = some (1, 10, 1, frame)
      ∧ readerNext 1 0 frame = some (.ok ⟨[⟨ino, b⟩]⟩ []) := by
  have hb64 : b.length < 18446744073709551616 := by
    unfold BUF_CAP at hsz
    omega
  have hpay : (encodeGroup ⟨[⟨ino, b⟩]⟩).length ≤ BUF_CAP := by
    have e2 := varintEnc_length ino
    have e3 := varintEnc_length b.length
    have e1 : (varintEnc 1).length = 1 := by decide
    unfold encodeGroup encodeFile
    norm_num [List.length_append, e1]
    unfold BUF_CAP at hsz ⊢
    omega
  have hpay32 : (encodeGroup ⟨[⟨ino, b⟩]⟩).length < 4294967296 := by
    unfold BUF_CAP at hpay
    omega
  have hframe : encodeFrame ⟨[⟨ino, b⟩]⟩ =
      some (u32le (encodeGroup ⟨[⟨ino, b⟩]⟩).length ++ encodeGroup ⟨[⟨ino, b⟩]⟩) := by
    unfold encodeFrame
    rw [if_pos hpay]
  have hu1 : u32le 1 = [1, 0, 0, 0] := by decide
  have hexp : exportFile [⟨[⟨ino, b⟩]⟩] = some (1 :: 10 :: 1 :: 0 :: 0 :: 0 ::
      (u32le (encodeGroup ⟨[⟨ino, b⟩]⟩).length ++ encodeGroup ⟨[⟨ino, b⟩]⟩)) := by
    unfold exportFile
    rw [List.mapM_cons, List.mapM_nil, hframe]
    simp only [Option.bind_eq_bind, Option.some_bind, Option.pure_def,
      List.flatten_cons, List.flatten_nil, List.append_nil, List.length_cons,
      List.length_nil]
    norm_num [hu1]
  refine ⟨_, u32le (encodeGroup ⟨[⟨ino, b⟩]⟩).length ++ encodeGroup ⟨[⟨ino, b⟩]⟩,
    hexp, ?_, ?_⟩
  · unfold read_header
    norm_num
  · unfold readerNext
    rw [if_pos (by omega)]
    unfold decode
    rw [readU32le_u32le _ _ hpay32]
    simp only
    rw [if_neg (by omega)]
    rw [if_neg (by omega)]
    rw [List.take_length]
    have hdec : decodeGroup (encodeGroup ⟨[⟨ino, b⟩]⟩) = some (⟨[⟨ino, b⟩]⟩, []) := by
      have := decodeGroup_enc ⟨[⟨ino, b⟩]⟩ [] (by simp)
        (by
          intro f hf
          simp only [List.mem_singleton] at hf
          subst hf
          exact ⟨hino, hb64⟩)
      simpa using this
    rw [hdec, List.drop_length]

/-- C4 witness: a concrete non-UTF-8, NUL-free path round-trips. -/
theorem C4_path_roundtrip_witness :
    ∃ out frame, exportFile [⟨[⟨7, [255, 254]⟩]⟩] = some out
      ∧ read_header out = some (1, 10, 1, frame)
      ∧ readerNext 1 0 frame = some (.ok ⟨[⟨7, [255, 254]⟩]⟩ []) :=
  C4_path_roundtrip [255, 254] 7 (by decide) (by decide) (by decide)

/-! Supporting definitions and lemmas for C2: a functional characterization
of `Duplicate::verify`. -/

/-- Whether `verify` splits the entry `vec`: it is not skipped by the
`len == 1` test and its indices fall into more than one full-hash group. -/
def splitB (records : List FileR) (fHash : FileR → Option Hash)
    (vec : List RecordIndex) : Bool :=
  if vec.length = 1 then false
  else
    match groupByFull records fHash vec with
    | some gs => decide (1 < gs.length)
    | none => false

/-- The entry's contribution to the conflict counter. -/
def conflictOf (records : List FileR) (fHash : FileR → Option Hash)
    (vec : List RecordIndex) : Nat :=
  if vec.length = 1 then 0
  else
    match groupByFull records fHash vec with
    | some gs => if 1 < gs.length then gs.length else 0
    | none => 0

theorem verifyGo_spec (records : List FileR) (fHash : FileR → Option Hash) :
    ∀ (entries full : List (Hash × List RecordIndex)) (cc : Nat)
      (l full' : List (Hash × List RecordIndex)) (cc' : Nat),
      verifyGo records fHash entries full cc = some (l, full', cc') →
      l = entries.map (fun p =>
          if splitB records fHash p.2 then (p.1, ([] : List RecordIndex)) else p)
        ∧ cc' = cc + (entries.map (fun p => conflictOf records fHash p.2)).sum
        ∧ full' = entries.foldl (fun acc p =>
            if splitB records fHash p.2 then
              mergeFull acc ((groupByFull records fHash p.2).getD [])
            else acc) full := by
  intro entries
  induction entries with
  | nil =>
    intro full cc l full' cc' h
    simp only [verifyGo, Option.some.injEq, Prod.mk.injEq] at h
    obtain ⟨h1, h2, h3⟩ := h
    simp [← h1, ← h2, ← h3]
  | cons e rest ih =>
    intro full cc l full' cc' h
    obtain ⟨hh, vec⟩ := e
    simp only [verifyGo] at h
    by_cases hv : vec.length = 1
    · rw [if_pos hv] at h
      cases hrec : verifyGo records fHash rest full cc with
      | none => rw [hrec] at h; exact absurd h (by simp)
      | some t =>
        obtain ⟨l0, f0, c0⟩ := t
        rw [hrec] at h
        simp only [Option.some.injEq, Prod.mk.injEq] at h
        obtain ⟨h1, h2, h3⟩ := h
        obtain ⟨ih1, ih2, ih3⟩ := ih full cc l0 f0 c0 hrec
        have hsp : splitB records fHash vec = false := by simp [splitB, hv]
        have hco : conflictOf records fHash vec = 0 := by simp [conflictOf, hv]
        subst h1 h2 h3
        refine ⟨?_, ?_, ?_⟩
        · simp only [List.map_cons, hsp, Bool.false_eq_true, if_false, ih1]
        · simp only [List.map_cons, hco, List.sum_cons, ih2]
          omega
        · simp only [List.foldl_cons, hsp, Bool.false_eq_true, if_false, ih3]
    · rw [if_neg hv] at h
      cases hgb : groupByFull records fHash vec with
      | none => rw [hgb] at h; exact absurd h (by simp)
      | some groups =>
        rw [hgb] at h
        simp only at h
        by_cases hlt : 1 < groups.length
        · rw [if_pos hlt] at h
          cases hrec : verifyGo records fHash rest (mergeFull full groups)
            (cc + groups.length) with
          | none => rw [hrec] at h; exact absurd h (by simp)
          | some t =>
            obtain ⟨l0, f0, c0⟩ := t
            rw [hrec] at h
            simp only [Option.some.injEq, Prod.mk.injEq] at h
            obtain ⟨h1, h2, h3⟩ := h
            obtain ⟨ih1, ih2, ih3⟩ :=
              ih (mergeFull full groups) (cc + groups.length) l0 f0 c0 hrec
            have hsp : splitB records fHash vec = true := by
              simp [splitB, hv, hgb, hlt]
            have hco : conflictOf records fHash vec = groups.length := by
              simp [conflictOf, hv, hgb, hlt]
            subst h1 h2 h3
            refine ⟨?_, ?_, ?_⟩
            · simp only [List.map_cons, hsp, if_true, ih1]
            · simp only [List.map_cons, hco, List.sum_cons, ih2]
              omega
            · simp only [List.foldl_cons, hsp, if_true, ih3, hgb, Option.getD_some]
        · rw [if_neg hlt] at h
          cases hrec : verifyGo records fHash rest full cc with
          | none => rw [hrec] at h; exact absurd h (by simp)
          | some t =>
            obtain ⟨l0, f0, c0⟩ := t
            rw [hrec] at h
            simp only [Option.some.injEq, Prod.mk.injEq] at h
            obtain ⟨h1, h2, h3⟩ := h
            obtain ⟨ih1, ih2, ih3⟩ := ih full cc l0 f0 c0 hrec
            have hsp : splitB records fHash vec = false := by
              simp [splitB, hv, hgb, hlt]
            have hco : conflictOf records fHash vec = 0 := by
              simp [conflictOf, hv, hgb, hlt]
            subst h1 h2 h3
            refine ⟨?_, ?_, ?_⟩
            · simp only [List.map_cons, hsp, Bool.false_eq_true, if_false, ih1]
            · simp only [List.map_cons, hco, List.sum_cons, ih2]
              omega
            · simp only [List.foldl_cons, hsp, Bool.false_eq_true, if_false, ih3]

/-- Membership in a looked-up index list survives one merge step. -/
theorem mem_lookupA_mergeStep {acc : List (Hash × List RecordIndex)}
    {p : Hash × List RecordIndex} {k : Hash} {i : RecordIndex}
    (h : i ∈ (lookupA acc k).getD []) :
    i ∈ (lookupA (mergeStep acc p) k).getD [] := by
  unfold mergeStep
  cases hl : lookupA acc p.1 with
  | some b =>
    by_cases hk : k = p.1
    · rw [hk] at h ⊢
      rw [hl] at h
      rw [lookupA_modifyA_self acc p.1 _ hl]
      simp only [Option.getD_some] at h ⊢
      exact List.mem_append_left _ h
    · have hne : k ≠ p.1 := hk
      rw [lookupA_modifyA_ne acc k p.1 _ hne]
      exact h
  | none =>
    cases hk2 : lookupA acc k with
    | some b =>
      rw [lookupA_append_left [p] hk2]
      rw [hk2] at h
      exact h
    | none =>
      rw [hk2] at h
      simp at h

/-- A merge step registers every index of its own group. -/
theorem mem_lookupA_mergeStep_self {acc : List (Hash × List RecordIndex)}
    {p : Hash × List RecordIndex} {i : RecordIndex} (h : i ∈ p.2) :
    i ∈ (lookupA (mergeStep acc p) p.1).getD [] := by
  unfold mergeStep
  cases hl : lookupA acc p.1 with
  | some b =>
    rw [lookupA_modifyA_self acc p.1 _ hl]
    simp only [Option.getD_some]
    exact List.mem_append_right _ h
  | none =>
    rw [lookupA_append_right [p] hl]
    obtain ⟨ph, pv⟩ := p
    simp only [lookupA, if_pos rfl, Option.getD_some]
    exact h

theorem mem_lookupA_mergeFull {full groups : List (Hash × List RecordIndex)}
    {k : Hash} {i : RecordIndex} (h : i ∈ (lookupA full k).getD []) :
    i ∈ (lookupA (mergeFull full groups) k).getD [] := by
  induction groups generalizing full with
  | nil => exact h
  | cons p t ih =>
    unfold mergeFull at ih ⊢
    rw [List.foldl_cons]
    exact ih (mem_lookupA_mergeStep h)

theorem mem_lookupA_mergeFull_self {full groups : List (Hash × List RecordIndex)}
    {q : Hash × List RecordIndex} {i : RecordIndex} (hq : q ∈ groups) (hi : i ∈ q.2) :
    i ∈ (lookupA (mergeFull full groups) q.1).getD [] := by
  induction groups generalizing full with
  | nil => simp at hq
  | cons p t ih =>
    unfold mergeFull at ih ⊢
    rw [List.foldl_cons]
    rcases List.mem_cons.1 hq with rfl | hmem
    · exact mem_lookupA_mergeFull (mem_lookupA_mergeStep_self hi)
    · exact ih hmem

/-- Membership in the full map survives the remaining entry folds. -/
theorem mem_lookupA_verifyFold {records : List FileR} {fHash : FileR → Option Hash}
    {entries full : List (Hash × List RecordIndex)} {k : Hash} {i : RecordIndex}
    (h : i ∈ (lookupA full k).getD []) :
    i ∈ (lookupA (entries.foldl (fun acc p =>
        if splitB records fHash p.2 then
          mergeFull acc ((groupByFull records fHash p.2).getD [])
        else acc) full) k).getD [] := by
  induction entries generalizing full with
  | nil => exact h
  | cons p t ih =>
    rw [List.foldl_cons]
    by_cases hs : splitB records fHash p.2
    · simp only [hs, if_true]
      exact ih (mem_lookupA_mergeFull h)
    · simp only [hs, Bool.false_eq_true, if_false]
      exact ih h

/-- C2: `verify` leaves an entry of the partial-hash map intact when its
indices form a single full-hash group (and when the entry is skipped),
clears exactly the entries that split into two or more groups, adds each
split group's indices to the full map under their full hash, and returns
the sum of the group counts of the split entries. -/
theorem C2_verify_splits (fHash : FileR → Option Hash) (s s' : DupState) (cc : Nat)
    (h : verify fHash s = some (s', cc)) :
    s'.hash2files = s.hash2files.map (fun p =>
        if splitB s.records fHash p.2 then (p.1, ([] : List RecordIndex)) else p)
      ∧ cc = (s.hash2files.map (fun p => conflictOf s.records fHash p.2)).sum
      ∧ s'.full_hash2files = s.hash2files.foldl (fun acc p =>
          if splitB s.records fHash p.2 then
            mergeFull acc ((groupByFull s.records fHash p.2).getD [])
          else acc) s.full_hash2files
      ∧ ∀ p ∈ s.hash2files, splitB s.records fHash p.2 = true →
          ∀ q ∈ (groupByFull s.records fHash p.2).getD [], ∀ i ∈ q.2,
            i ∈ (lookupA s'.full_hash2files q.1).getD [] := by
  unfold verify at h
  cases hgo : verifyGo s.records fHash s.hash2files s.full_hash2files 0 with
  | none => rw [hgo] at h; exact absurd h (by simp)
  | some t =>
    obtain ⟨h2f, full, cc0⟩ := t
    rw [hgo] at h
    simp only [Option.some.injEq, Prod.mk.injEq] at h
    obtain ⟨hs', hcc⟩ := h
    obtain ⟨g1, g2, g3⟩ := verifyGo_spec s.records fHash s.hash2files
      s.full_hash2files 0 h2f full cc0 hgo
    have hfields : s'.hash2files = h2f ∧ s'.full_hash2files = full
        ∧ s'.records = s.records := by
      rw [← hs']
      exact ⟨rfl, rfl, rfl⟩
    refine ⟨hfields.1.trans g1, by omega, hfields.2.1.trans g3, ?_⟩
    intro p hp hsplit q hq i hi
    rw [hfields.2.1, g3]
    obtain ⟨l1, l2, hdecomp⟩ := List.append_of_mem hp
    rw [hdecomp, List.foldl_append, List.foldl_cons, if_pos hsplit]
    exact mem_lookupA_verifyFold (mem_lookupA_mergeFull_self hq hi)

/-- C2 witness: two records with equal partial hash but different content
split into two full-hash groups; the entry is cleared and the conflict
counter is 2. -/
theorem C2_verify_splits_witness :
    (⟨[⟨[97], none, 1, 8⟩, ⟨[98], none, 2, 9⟩], [8, 9], [], [(7, [])],
        [(1, [0]), (2, [1])], 2, 1⟩ : DupState).hash2files =
      ([(7, [0, 1])] : List (Hash × List RecordIndex)).map (fun p =>
        if splitB [⟨[97], none, 1, 8⟩, ⟨[98], none, 2, 9⟩]
            (fun f => some f.size) p.2 then (p.1, ([] : List RecordIndex)) else p) :=
  (C2_verify_splits (fun f => some f.size)
    ⟨[⟨[97], none, 1, 8⟩, ⟨[98], none, 2, 9⟩], [8, 9], [], [(7, [0, 1])], [], 2, 1⟩
    ⟨[⟨[97], none, 1, 8⟩, ⟨[98], none, 2, 9⟩], [8, 9], [], [(7, [])],
        [(1, [0]), (2, [1])], 2, 1⟩
    2 (by decide)).1

/-! Supporting definitions and lemmas for C10: every stored record index
is below the length of the append-only record store. -/

/-- A classification slot stores only in-bounds indices. -/
def slotOK : Nat → PreviousScanned → Bool
  | n, .Index i => decide (i < n)
  | _, .Hash _ => true

def SetOK (n : Nat) (l : List ((Nat × Nat) × PreviousScanned)) : Prop :=
  ∀ e ∈ l, slotOK n e.2 = true

def MapOK (n : Nat) (l : List (Hash × List RecordIndex)) : Prop :=
  ∀ p ∈ l, ∀ i ∈ p.2, i < n

/-- The C10 invariant: all indices reachable from the classification
index, the partial-hash map and the full-hash map are in bounds of the
record store. -/
def Inv (s : DupState) : Prop :=
  SetOK s.records.length s.set ∧ MapOK s.records.length s.hash2files
    ∧ MapOK s.records.length s.full_hash2files

theorem slotOK_mono {n m : Nat} (h : n ≤ m) {p : PreviousScanned}
    (hp : slotOK n p = true) : slotOK m p = true := by
  cases p with
  | Index i =>
    simp only [slotOK, decide_eq_true_eq] at hp ⊢
    exact Nat.lt_of_lt_of_le hp h
  | Hash s => rfl

theorem SetOK_mono {n m : Nat} (h : n ≤ m) {l : List ((Nat × Nat) × PreviousScanned)}
    (hl : SetOK n l) : SetOK m l :=
  fun e he => slotOK_mono h (hl e he)

theorem MapOK_mono {n m : Nat} (h : n ≤ m) {l : List (Hash × List RecordIndex)}
    (hl : MapOK n l) : MapOK m l := by
  intro p hp i hi
  have hlt := hl p hp i hi
  exact Nat.lt_of_lt_of_le hlt h

theorem SetOK_insertA {n : Nat} {l : List ((Nat × Nat) × PreviousScanned)}
    {k : Nat × Nat} {v : PreviousScanned} (hl : SetOK n l) (hv : slotOK n v = true) :
    SetOK n (insertA l k v) := by
  intro e he
  rcases mem_insertA he with h | h
  · exact hl e h
  · rw [h]
    exact hv

theorem MapOK_insertA {n : Nat} {l : List (Hash × List RecordIndex)} {k : Hash}
    {v : List RecordIndex} (hl : MapOK n l) (hv : ∀ i ∈ v, i < n) :
    MapOK n (insertA l k v) := by
  intro p hp
  rcases mem_insertA hp with h | h
  · exact hl p h
  · rw [h]
    exact hv

theorem MapOK_modifyA_append {n : Nat} {l : List (Hash × List RecordIndex)} {k : Hash}
    {v : List RecordIndex} (hl : MapOK n l) (hv : ∀ i ∈ v, i < n) :
    MapOK n (modifyA l k (fun x => x ++ v)) := by
  intro p hp
  rcases mem_modifyA hp with h | ⟨b, hb, hp'⟩
  · exact hl p h
  · rw [hp']
    intro i hi
    rcases List.mem_append.1 hi with h' | h'
    · exact hl (k, b) hb i h'
    · exact hv i h'

theorem pushStep2_Inv {n : Nat} {s : DupState} {key : Nat × Nat} {hash : Hash}
    {index : RecordIndex} {hs : List Hash}
    (h1 : SetOK n s.set) (h2 : MapOK n s.hash2files) (h3 : MapOK n s.full_hash2files)
    (hidx : index < n) :
    (pushStep2 s key hash index hs).1.records = s.records
      ∧ SetOK n (pushStep2 s key hash index hs).1.set
      ∧ MapOK n (pushStep2 s key hash index hs).1.hash2files
      ∧ MapOK n (pushStep2 s key hash index hs).1.full_hash2files := by
  unfold pushStep2
  dsimp only
  cases hl : lookupA s.hash2files hash with
  | some b =>
    dsimp only
    refine ⟨rfl, SetOK_insertA h1 rfl, ?_, h3⟩
    refine MapOK_modifyA_append h2 ?_
    intro i hi
    rw [List.mem_singleton.1 hi]
    exact hidx
  | none =>
    dsimp only
    refine ⟨rfl, SetOK_insertA h1 rfl, ?_, h3⟩
    refine MapOK_insertA h2 ?_
    intro i hi
    rw [List.mem_singleton.1 hi]
    exact hidx

/-- Package of `pushStep2_Inv` directly usable for the `Inv` goal. -/
theorem pushStep2_Inv_packaged {n : Nat} {s : DupState} {key : Nat × Nat} {hash : Hash}
    {index : RecordIndex} {hs : List Hash}
    (h1 : SetOK n s.set) (h2 : MapOK n s.hash2files) (h3 : MapOK n s.full_hash2files)
    (hidx : index < n) (hn : s.records.length = n) :
    Inv (pushStep2 s key hash index hs).1 := by
  have P := @pushStep2_Inv n s key hash index hs h1 h2 h3 hidx
  unfold Inv
  rw [P.1, hn]
  exact ⟨P.2.1, P.2.2.1, P.2.2.2⟩

theorem push_Inv (pHash : FileR → Option Hash) (s : DupState) (f : FileR)
    (h : Inv s) : Inv (push pHash s f).1 := by
  obtain ⟨h1, h2, h3⟩ := h
  unfold push
  dsimp only
  by_cases hino : f.ino ∈ s.inode_set
  · rw [if_pos hino]
    exact ⟨h1, h2, h3⟩
  · rw [if_neg hino]
    have hle : s.records.length ≤ (s.records ++ [f]).length := by simp
    have h1' : SetOK (s.records ++ [f]).length s.set := SetOK_mono hle h1
    have h2' : MapOK (s.records ++ [f]).length s.hash2files := MapOK_mono hle h2
    have h3' : MapOK (s.records ++ [f]).length s.full_hash2files := MapOK_mono hle h3
    have hidx : s.records.length < (s.records ++ [f]).length := by simp
    split
    · refine ⟨?_, h2', h3'⟩
      refine SetOK_insertA h1' ?_
      simp only [slotOK, decide_eq_true_eq]
      exact hidx
    · rename_i prev hlk
      split
      · exact ⟨h1', h2', h3'⟩
      · rename_i hash hph
        split
        · rename_i pi
          have hpi : pi < s.records.length := by
            have hmem := lookupA_mem hlk
            have hso := h1 _ hmem
            simpa [slotOK] using hso
          split
          · exact ⟨h1', h2', h3'⟩
          · rename_i ph hph2
            refine pushStep2_Inv_packaged
              (SetOK_insertA h1' rfl) (MapOK_insertA h2' ?_) h3' hidx rfl
            intro i hi
            rw [List.mem_singleton.1 hi]
            exact Nat.lt_of_lt_of_le hpi hle
        · rename_i hs
          exact pushStep2_Inv_packaged h1' h2' h3' hidx rfl

theorem discover_Inv (filt : FileR → Bool) (pHash : FileR → Option Hash)
    (s : DupState) (files : List FileR) (h : Inv s) :
    Inv (discover filt pHash s files).1 := by
  unfold discover
  suffices haux : ∀ (acc : DupState × List (List Nat)), Inv acc.1 →
      Inv ((files.foldl
        (fun acc f =>
          let st := { acc.1 with scanned := acc.1.scanned + 1 }
          if filt f then
            match push pHash st f with
            | (st', true) => (st', acc.2)
            | (st', false) => (st', acc.2 ++ [f.path])
          else (st, acc.2))
        acc)).1 from haux (s, []) h
  induction files with
  | nil => intro acc hacc; exact hacc
  | cons f t ih =>
    intro acc hacc
    rw [List.foldl_cons]
    by_cases hf : filt f
    · simp only [if_pos hf]
      have hst : Inv { acc.1 with scanned := acc.1.scanned + 1 } := hacc
      have hp := push_Inv pHash { acc.1 with scanned := acc.1.scanned + 1 } f hst
      cases hpp : push pHash { acc.1 with scanned := acc.1.scanned + 1 } f with
      | mk st' b =>
        rw [hpp] at hp
        cases b
        · exact ih (st', acc.2 ++ [f.path]) hp
        · exact ih (st', acc.2) hp
    · simp only [if_neg hf]
      exact ih _ hacc

theorem groupByFull_bounded {records : List FileR} {fHash : FileR → Option Hash}
    (P : RecordIndex → Prop) :
    ∀ (vec : List RecordIndex) (acc gs : List (Hash × List RecordIndex)),
      (∀ i ∈ vec, P i) → (∀ q ∈ acc, ∀ i ∈ q.2, P i) →
      vec.foldlM
        (fun acc i =>
          match fHash (records.getD i default) with
          | none => none
          | some c =>
            some (match lookupA acc c with
              | some _ => modifyA acc c (fun l => l ++ [i])
              | none => acc ++ [(c, [i])]))
        acc = some gs →
      ∀ q ∈ gs, ∀ i ∈ q.2, P i := by
  intro vec
  induction vec with
  | nil =>
    intro acc gs hvec hacc h
    simp only [List.foldlM_nil, Option.pure_def, Option.some.injEq] at h
    rw [← h]
    exact hacc
  | cons j t ih =>
    intro acc gs hvec hacc h
    rw [List.foldlM_cons] at h
    cases hj : fHash (records.getD j default) with
    | none =>
      rw [hj] at h
      exact absurd h (by simp)
    | some c =>
      rw [hj] at h
      simp only [Option.bind_eq_bind, Option.some_bind] at h
      have hPj : P j := hvec j (List.mem_cons_self _ _)
      have hvt : ∀ i ∈ t, P i := fun i hi => hvec i (List.mem_cons_of_mem _ hi)
      refine ih _ gs hvt ?_ h
      cases hl : lookupA acc c with
      | some b =>
        dsimp only
        intro q hq
        rcases mem_modifyA hq with h' | ⟨b', hb', hq'⟩
        · exact hacc q h'
        · rw [hq']
          intro i hi
          rcases List.mem_append.1 hi with h' | h'
          · exact hacc (c, b') hb' i h'
          · simp at h'
            rw [h']
            exact hPj
      | none =>
        dsimp only
        intro q hq
        rcases List.mem_append.1 hq with h' | h'
        · exact hacc q h'
        · simp at h'
          rw [h']
          intro i hi
          simp at hi
          rw [hi]
          exact hPj

theorem MapOK_mergeStep {n : Nat} {acc : List (Hash × List RecordIndex)}
    {p : Hash × List RecordIndex} (hacc : MapOK n acc) (hp : ∀ i ∈ p.2, i < n) :
    MapOK n (mergeStep acc p) := by
  unfold mergeStep
  cases hl : lookupA acc p.1 with
  | some b => exact MapOK_modifyA_append hacc hp
  | none =>
    intro q hq
    rcases List.mem_append.1 hq with h' | h'
    · exact hacc q h'
    · simp at h'
      rw [h']
      exact hp

theorem MapOK_mergeFull {n : Nat} {full groups : List (Hash × List RecordIndex)}
    (hfull : MapOK n full) (hg : ∀ q ∈ groups, ∀ i ∈ q.2, i < n) :
    MapOK n (mergeFull full groups) := by
  induction groups generalizing full with
  | nil => exact hfull
  | cons p t ih =>
    unfold mergeFull at ih ⊢
    rw [List.foldl_cons]
    exact ih (MapOK_mergeStep hfull (hg p (List.mem_cons_self _ _)))
      (fun q hq => hg q (List.mem_cons_of_mem _ hq))

theorem MapOK_verifyFold {n : Nat} {records : List FileR} {fHash : FileR → Option Hash}
    {entries full : List (Hash × List RecordIndex)}
    (hfull : MapOK n full) (hent : MapOK n entries) :
    MapOK n (entries.foldl (fun acc p =>
      if splitB records fHash p.2 then
        mergeFull acc ((groupByFull records fHash p.2).getD [])
      else acc) full) := by
  induction entries generalizing full with
  | nil => exact hfull
  | cons p t ih =>
    rw [List.foldl_cons]
    have hent' : MapOK n t := fun q hq => hent q (List.mem_cons_of_mem _ hq)
    by_cases hs : splitB records fHash p.2
    · simp only [hs, if_true]
      refine ih ?_ hent'
      cases hgb : groupByFull records fHash p.2 with
      | none =>
        simpa [mergeFull] using hfull
      | some gs =>
        simp only [Option.getD_some]
        refine MapOK_mergeFull hfull ?_
        exact groupByFull_bounded (fun i => i < n) p.2 [] gs
          (hent p (List.mem_cons_self _ _)) (by simp) hgb
    · simp only [hs, Bool.false_eq_true, if_false]
      exact ih hfull hent'

theorem verify_Inv (fHash : FileR → Option Hash) {s s' : DupState} {cc : Nat}
    (h : verify fHash s = some (s', cc)) (hinv : Inv s) : Inv s' := by
  obtain ⟨h1, h2, h3⟩ := hinv
  unfold verify at h
  cases hgo : verifyGo s.records fHash s.hash2files s.full_hash2files 0 with
  | none => rw [hgo] at h; exact absurd h (by simp)
  | some t =>
    obtain ⟨h2f, full, cc0⟩ := t
    rw [hgo] at h
    simp only [Option.some.injEq, Prod.mk.injEq] at h
    obtain ⟨hs', _⟩ := h
    obtain ⟨g1, _, g3⟩ := verifyGo_spec s.records fHash s.hash2files
      s.full_hash2files 0 h2f full cc0 hgo
    rw [← hs']
    refine ⟨h1, ?_, ?_⟩
    · rw [g1]
      intro p hp
      obtain ⟨p0, hp0, hpe⟩ := List.mem_map.1 hp
      by_cases hsp : splitB s.records fHash p0.2
      · rw [if_pos hsp] at hpe
        rw [← hpe]
        simp
      · rw [if_neg hsp] at hpe
        rw [← hpe]
        exact h2 p0 hp0
    · rw [g3]
      exact MapOK_verifyFold h3 h2

/-- Initial engine state satisfies the invariant. -/
theorem Inv_newDup : Inv newDup := by
  refine ⟨?_, ?_, ?_⟩ <;> intro p hp <;> simp [newDup] at hp

/-- C10: after a discovery run from a fresh engine (with any walked files,
any filter and any per-file hashing outcomes) and a successful
verification, every index stored in a `FirstSeen` slot, in the
partial-hash map or in the full-hash map is strictly below the number of
records, so every `records[index]` access is in bounds. -/
theorem C10_indices_in_bounds (filt : FileR → Bool)
    (pHash fHash : FileR → Option Hash) (files : List FileR) (s2 : DupState)
    (cc : Nat)
    (h : verify fHash (discover filt pHash newDup files).1 = some (s2, cc)) :
    Inv (discover filt pHash newDup files).1 ∧ Inv s2 := by
  have hd : Inv (discover filt pHash newDup files).1 :=
    discover_Inv filt pHash newDup files Inv_newDup
  exact ⟨hd, verify_Inv fHash h hd⟩

/-- C10 witness: two same-sized `.t` files that collide on the partial
hash and split under the full hash. -/
theorem C10_indices_in_bounds_witness :
    Inv (discover (fun _ => true) (fun _ => some 3) newDup
        [⟨[97], some [116], 5, 1⟩, ⟨[98], some [116], 5, 2⟩]).1
      ∧ Inv ⟨[⟨[97], some [116], 5, 1⟩, ⟨[98], some [116], 5, 2⟩], [2, 1],
          [((116, 5), .Hash [3])], [(3, [])], [(1, [0]), (2, [1])], 2, 1⟩ :=
  C10_indices_in_bounds (fun _ => true) (fun _ => some 3) (fun f => some f.ino)
    [⟨[97], some [116], 5, 1⟩, ⟨[98], some [116], 5, 2⟩]
    ⟨[⟨[97], some [116], 5, 1⟩, ⟨[98], some [116], 5, 2⟩], [2, 1],
        [((116, 5), .Hash [3])], [(3, [])], [(1, [0]), (2, [1])], 2, 1⟩
    2 (by decide)

end NasToolbox
